import Mathlib

/-!
Verification of the massiveWiki server core against its specification.

The server (`server.js`) is embedded shallowly: every definition below is a
direct translation of a function (or handler fragment) of the source, working
on `List Char` in place of JavaScript strings so that all operations compute
by kernel reduction.  JavaScript objects used as string maps are modelled as
association lists with front insertion (the most recent write shadows older
ones, exactly like property assignment), and the file system is modelled as a
list of named entries (`FsEntry`).
-/

namespace MassiveWiki

/-- Character-list image of a string literal, used throughout. -/
abbrev Str := List Char

/-- JavaScript `String.prototype.toLowerCase`, restricted to the per-character
lowering that the wiki relies on. -/
def lowerL (s : Str) : Str := s.map Char.toLower

/-- One step of the JavaScript regex replacement `replace(/\s+/g, '-')`:
a run of whitespace becomes a single hyphen.  The boolean records whether the
previous character belonged to a whitespace run. -/
def collapseWs (prevWs : Bool) : Str → Str
  | [] => []
  | c :: rest =>
    if c.isWhitespace then
      if prevWs then collapseWs true rest else '-' :: collapseWs true rest
    else c :: collapseWs false rest

/-- JavaScript `String.prototype.trim`: strip whitespace from both ends. -/
def jsTrim (s : Str) : Str :=
  ((s.dropWhile Char.isWhitespace).reverse.dropWhile Char.isWhitespace).reverse

/-- The normalizer exactly as the specification words it (section 4.1):
lowercase the input and replace each whitespace run by a hyphen.  The
specification does not trim; the code does, which is what several claims
turn on. -/
def specNormalize (s : Str) : Str := collapseWs false (lowerL s)

/-- Lookup in an association list modelling a JavaScript object used as a
string map; the first (most recently inserted) binding wins. -/
def alistLookup (k : Str) : List (Str × Str) → Option Str
  | [] => none
  | (k', v) :: rest => if k' = k then some v else alistLookup k rest

/-- JavaScript truthiness of `pageIndex[key]`: absent and empty string are
both falsy. -/
def truthy : Option Str → Bool
  | none => false
  | some s => !s.isEmpty

/-- JavaScript `String.prototype.split` with a one-character separator. -/
def splitOnChar (sep : Char) : Str → List Str
  | [] => [[]]
  | c :: rest =>
    match splitOnChar sep rest with
    | [] => if c = sep then [[], []] else [[c]]
    | p :: ps => if c = sep then [] :: p :: ps else (c :: p) :: ps

/-- JavaScript `Array.prototype.join` with the given separator. -/
def joinWith (sep : Str) : List Str → Str
  | [] => []
  | [p] => p
  | p :: ps => p ++ sep ++ joinWith sep ps

/-- Final segment of a slash-delimited path (`parts[parts.length - 1]`). -/
def lastSegment (p : Str) : Str := (splitOnChar '/' p).getLastD []

/-- Whether `pat` occurs as a contiguous sublist of `s`. -/
def containsSub (pat : Str) : Str → Bool
  | [] => pat.isEmpty
  | c :: rest => pat.isPrefixOf (c :: rest) || containsSub pat rest

/-- Case-insensitive substring test, the effect of matching the literal
`pat` under the `i` regex flag. -/
def containsSubCI (pat s : Str) : Bool := containsSub (lowerL pat) (lowerL s)

/-- Parsing of one wikilink's inner text, lines 262-273 of the server:
trim the whole inner text, split on pipes, and return the looked-up page
name together with the display text. -/
def wikilinkParts (innerRaw : Str) : Str × Str :=
  let fullMatch := jsTrim innerRaw
  if fullMatch.contains '|' then
    let parts := splitOnChar '|' fullMatch
    (specNormalize (jsTrim (parts.headD [])), jsTrim (parts.getD 1 []))
  else
    (specNormalize fullMatch, fullMatch)

/-- Resolution of one wikilink against the global page index, lines 276-296:
on a truthy index hit the link is to the indexed path and marked existing;
otherwise the red-link target is the bare name from the home page (or with no
current page) and `currentPagePath/name` elsewhere. -/
def resolveWikilink (pageIndex : List (Str × Str)) (currentPagePath : Str)
    (innerRaw : Str) : Str × Bool :=
  let pageName := (wikilinkParts innerRaw).1
  let targetPath := (alistLookup pageName pageIndex).getD []
  if targetPath ≠ [] then (targetPath, true)
  else if currentPagePath = [] ∨ currentPagePath = "home".data then (pageName, false)
  else (currentPagePath ++ '/' :: pageName, false)

/-- The anchor markup emitted for a resolved wikilink, line 299-300. -/
def linkHtml (linkPath : Str) (ex : Bool) (displayText : Str) : Str :=
  "<a href=\"/".data ++ linkPath ++ "\" class=\"".data ++
    (if ex then "wikilink".data else "wikilink wikilink-new".data) ++
    "\" data-page=\"".data ++ linkPath ++ "\" data-exists=\"".data ++
    (if ex then "true".data else "false".data) ++ "\">".data ++
    displayText ++ "</a>".data

/-- The character class `[^\]]` of the wikilink regexes. -/
def notCloseBr (c : Char) : Bool := c ≠ ']'

/-- The wikilink pass of `processWikilinks` (lines 255-306).  The source
collects all matches of `/\[\[([^\]]+)\]\]/g` and then replaces each matched
text by its anchor; since anchors contain no `]]`, that is the same as this
single left-to-right scan, which mirrors the regex engine: at a `[[`, the
candidate inner text runs to the first `]`, the match succeeds when it is
nonempty and followed by `]]`, and on failure the scan advances one
character. -/
def processWikilinks (idx : List (Str × Str)) (cur : Str) : Str → Str
  | [] => []
  | '[' :: '[' :: rest2 =>
    let inner := rest2.takeWhile notCloseBr
    let after := rest2.dropWhile notCloseBr
    if (after.take 2 = [']', ']'] ∧ inner ≠ []) then
      let r := resolveWikilink idx cur inner
      linkHtml r.1 r.2 (wikilinkParts inner).2 ++ processWikilinks idx cur (after.drop 2)
    else '[' :: processWikilinks idx cur ('[' :: rest2)
  | c :: rest => c :: processWikilinks idx cur rest
termination_by s => s.length
decreasing_by
  · have h1 : (rest2.dropWhile notCloseBr).length ≤ rest2.length :=
      (List.dropWhile_sublist _).length_le
    simp only [List.length_drop, List.length_cons]
    omega
  all_goals simp

/-! ## File system model and the page index -/

/-- A directory entry of the wiki's `pages/` root: a plain file or a
subdirectory with its own entries, in `readdir` order. -/
inductive FsEntry where
  | file (name : Str)
  | dir (name : Str) (entries : List FsEntry)

/-- Path join against a possibly empty relative base, as
`relativePath ? path.join(relativePath, entry.name) : entry.name`. -/
def joinRel (rp name : Str) : Str := if rp = [] then name else rp ++ '/' :: name

/-- JavaScript `name.endsWith('.md')`. -/
def endsWithMd (name : Str) : Bool := ".md".data.isSuffixOf name

/-- JavaScript `s.slice(0, -3)`, dropping the `.md` extension. -/
def dropExt3 (s : Str) : Str := s.take (s.length - 3)

/-- The two index insertions of `buildPageIndex` (lines 236-241) for one
markdown file: the leaf-name key only when not already truthy, then the
full-path key unconditionally.  Insertion is modelled by consing, which
shadows older bindings exactly like assignment into the object. -/
def indexInsertPage (idx : List (Str × Str)) (pagePath pageName : Str) :
    List (Str × Str) :=
  let idx1 := if truthy (alistLookup (lowerL pageName) idx) then idx
              else (lowerL pageName, pagePath) :: idx
  (lowerL pagePath, pagePath) :: idx1

/-- The recursive `scanDirectory` of `buildPageIndex` (lines 220-244): files
and directories are processed in order, directories recursively; note that
unlike the other walkers this one does not skip dot-prefixed entries. -/
def scanDirectory (idx : List (Str × Str)) (relativePath : Str) :
    List FsEntry → List (Str × Str)
  | [] => idx
  | .file name :: rest =>
    scanDirectory
      (if endsWithMd name then
        indexInsertPage idx (dropExt3 (joinRel relativePath name)) (dropExt3 name)
       else idx) relativePath rest
  | .dir name entries :: rest =>
    scanDirectory (scanDirectory idx (joinRel relativePath name) entries)
      relativePath rest

/-- The `buildPageIndex` rebuild (lines 217-252): reset the index and scan
the pages root. -/
def buildPageIndex (root : List FsEntry) : List (Str × Str) :=
  scanDirectory [] [] root

/-- The walk order of `buildPageIndex`, as pairs of
(full path without extension, file name without extension). -/
def walkDirectory (relativePath : Str) : List FsEntry → List (Str × Str)
  | [] => []
  | .file name :: rest =>
    (if endsWithMd name then [(dropExt3 (joinRel relativePath name), dropExt3 name)]
     else []) ++ walkDirectory relativePath rest
  | .dir name entries :: rest =>
    walkDirectory (joinRel relativePath name) entries ++ walkDirectory relativePath rest

/-- One page's index insertions as a fold step over the walk. -/
def applyPage (idx : List (Str × Str)) (pr : Str × Str) : List (Str × Str) :=
  indexInsertPage idx pr.1 pr.2

/-- The path of the last walked page whose lowercased full path equals the
key, if any. -/
def lastPathMatch (ps : List (Str × Str)) (k : Str) : Option Str :=
  ((ps.filter (fun pr => lowerL pr.1 = k)).getLast?).map Prod.fst

/-- The path of the first walked page whose lowercased leaf name equals the
key, if any. -/
def firstLeafMatch (ps : List (Str × Str)) (k : Str) : Option Str :=
  ((ps.filter (fun pr => lowerL pr.2 = k)).head?).map Prod.fst

/-! ## Tree builder -/

/-- A node of the sidebar tree: name, slash-joined path, variant tag
(`"page"`, `"page-parent"` or `"folder"`), content flag and children. -/
inductive TreeNode where
  | mk (name : Str) (path : Str) (type : Str) (hasContent : Bool)
       (children : List TreeNode)

def TreeNode.name : TreeNode → Str
  | .mk n _ _ _ _ => n

def TreeNode.path : TreeNode → Str
  | .mk _ p _ _ _ => p

def TreeNode.type : TreeNode → Str
  | .mk _ _ t _ _ => t

def TreeNode.hasContent : TreeNode → Bool
  | .mk _ _ _ h _ => h

def TreeNode.children : TreeNode → List TreeNode
  | .mk _ _ _ _ cs => cs

/-- JavaScript `item.name.replace('.md', '')`: remove the first occurrence
of `.md` anywhere in the name (the base name of a markdown file). -/
def removeFirstMd : Str → Str
  | [] => []
  | '.' :: 'm' :: 'd' :: rest => rest
  | c :: rest => c :: removeFirstMd rest

/-- Whether an entry name is dot-prefixed (skipped by `buildTree`). -/
def isDotName : Str → Bool
  | '.' :: _ => true
  | _ => false

/-- The ordered base names of the markdown files at one level
(the keys of the `mdFiles` map, lines 431-439). -/
def mdBaseNames : List FsEntry → List Str
  | [] => []
  | .file name :: rest =>
    if isDotName name then mdBaseNames rest
    else if endsWithMd name then removeFirstMd name :: mdBaseNames rest
    else mdBaseNames rest
  | .dir _ _ :: rest => mdBaseNames rest

/-- The ordered names of the subdirectories at one level
(the keys of the `directories` map). -/
def dirNames : List FsEntry → List Str
  | [] => []
  | .file _ :: rest => dirNames rest
  | .dir name _ :: rest =>
    if isDotName name then dirNames rest else name :: dirNames rest

/-- Duplicate removal keeping the first occurrence, the iteration order of a
JavaScript `Set` built from a concatenation. -/
def dedupFirst : List Str → List Str
  | [] => []
  | x :: rest => x :: (dedupFirst rest).filter (fun y => y ≠ x)

/-- The entry list of the subdirectory with the given (non-dot) name, used
for the recursive `buildTree(path.join(dir, name))` call; names are unique
in a real directory, so the first match is the one on disk. -/
def findDirEntries (name : Str) : List FsEntry → Option (List FsEntry)
  | [] => none
  | .file _ :: rest => findDirEntries name rest
  | .dir n es :: rest =>
    if n = name ∧ ¬ isDotName n then some es else findDirEntries name rest

/-- Subdirectory entries are smaller than the level that holds them; this
justifies the recursion of `buildTree`. -/
theorem findDirEntries_size {name : Str} :
    ∀ {l es : List FsEntry}, findDirEntries name l = some es →
      sizeOf es < sizeOf l := by
  intro l
  induction l with
  | nil => intro es h; simp [findDirEntries] at h
  | cons e rest ih =>
    intro es h
    cases e with
    | file n =>
      have := ih (by simpa [findDirEntries] using h)
      simp only [List.cons.sizeOf_spec]
      omega
    | dir n l2 =>
      simp only [findDirEntries] at h
      by_cases hn : n = name ∧ ¬ isDotName n
      · rw [if_pos hn] at h
        cases h
        simp only [List.cons.sizeOf_spec, FsEntry.dir.sizeOf_spec]
        omega
      · rw [if_neg hn] at h
        have := ih h
        simp only [List.cons.sizeOf_spec]
        omega

/-- Strict lexicographic comparison of names by code point. -/
def strLtB : Str → Str → Bool
  | [], [] => false
  | [], _ :: _ => true
  | _ :: _, [] => false
  | a :: as, b :: bs => if a < b then true else if b < a then false else strLtB as bs

/-- The comparator of lines 488-492 as a total preorder: `home` sorts first,
the rest by name (`localeCompare` is modelled as code-point order). -/
def treeLe (a b : TreeNode) : Bool :=
  if a.name = "home".data then true
  else if b.name = "home".data then false
  else ! strLtB b.name a.name

/-- Stable insertion used to model the stable `Array.prototype.sort`. -/
def insertSorted (x : TreeNode) : List TreeNode → List TreeNode
  | [] => [x]
  | y :: ys => if treeLe x y then x :: y :: ys else y :: insertSorted x ys

/-- Stable sort of one tree level by `treeLe`. -/
def sortTree : List TreeNode → List TreeNode
  | [] => []
  | x :: xs => insertSorted x (sortTree xs)

mutual

/-- The recursive `buildTree` (lines 422-493): group the level's markdown
files and subdirectories by base name, synthesize one node per name
(`page-parent` when both are present, `page` for a file alone, `folder` for
a directory alone) and sort with `home` first. -/
def buildTree (entries : List FsEntry) (basePath : Str) : List TreeNode :=
  sortTree (buildTreeNames entries basePath (dedupFirst (mdBaseNames entries ++ dirNames entries)))
termination_by (sizeOf entries, 1, 0)
decreasing_by
  exact Prod.Lex.right _ (Prod.Lex.left _ _ (by omega))

/-- The per-name loop of `buildTree` (lines 445-485). -/
def buildTreeNames (entries : List FsEntry) (basePath : Str) :
    (names : List Str) → List TreeNode
  | [] => []
  | name :: rest =>
    let itemPath := joinRel basePath name
    (if hfd : (findDirEntries name entries).isSome then
       let children := buildTree ((findDirEntries name entries).get hfd) itemPath
       if name ∈ mdBaseNames entries then
         TreeNode.mk name itemPath "page-parent".data true children
       else
         TreeNode.mk name itemPath "folder".data false children
     else TreeNode.mk name itemPath "page".data true []) ::
      buildTreeNames entries basePath rest
termination_by names => (sizeOf entries, 0, names.length)
decreasing_by
  · exact Prod.Lex.left _ _ (findDirEntries_size (Option.some_get hfd).symm)
  · exact Prod.Lex.right _ (Prod.Lex.right _ (by simp only [List.length_cons]; omega))

end

/-- All nodes of a forest, at every depth. -/
def allNodesList : List TreeNode → List TreeNode
  | [] => []
  | .mk n p t h cs :: rest =>
    .mk n p t h cs :: (allNodesList cs ++ allNodesList rest)

/-- The per-node tree invariant that actually holds of `buildTree` output:
`page` nodes have content and no children, `page-parent` nodes have content
(their children may be empty when the same-named directory has no eligible
entries), and `folder` holds exactly when the node has no content. -/
def nodeOk (t : TreeNode) : Prop :=
  (t.type = "page".data → t.hasContent = true ∧ t.children = []) ∧
  (t.type = "page-parent".data → t.hasContent = true) ∧
  (t.type = "folder".data ↔ t.hasContent = false) ∧
  (t.type = "page".data ∨ t.type = "page-parent".data ∨ t.type = "folder".data)

/-! ## Body and footer split of the page-read handler -/

/-- Whether the split regex `/\n---+\n/` (line 548) matches at the start of
the text: a newline, a maximal run of at least three hyphens, a newline.
Returns the remainder after the match.  (The regex engine cannot match with
fewer hyphens than the maximal run, because the character after a shorter
run is a hyphen, not a newline.) -/
def hrMatchAt : Str → Option Str
  | [] => none
  | c :: rest =>
    if c = '\n' ∧ (rest.dropWhile (fun x => x = '-')).head? = some '\n' ∧
        (rest.takeWhile (fun x => x = '-')).length ≥ 3 then
      some (rest.dropWhile (fun x => x = '-')).tail
    else none

/-- The leftmost match of `/\n---+\n/`: the text before the match and the
text after it, or `none` when there is no match. -/
def findHr : Str → Option (Str × Str)
  | [] => none
  | c :: rest =>
    match hrMatchAt (c :: rest) with
    | some a => some ([], a)
    | none =>
      match findHr rest with
      | none => none
      | some (b, a) => some (c :: b, a)

/-- A head match consumes at least one character. -/
theorem hrMatchAt_shrinks : ∀ {s a : Str}, hrMatchAt s = some a → a.length < s.length := by
  intro s a h
  cases s with
  | nil => simp [hrMatchAt] at h
  | cons c rest =>
    simp only [hrMatchAt] at h
    split at h
    · simp only [Option.some.injEq] at h
      subst h
      have h1 : (rest.dropWhile (fun x => x = '-')).length ≤ rest.length :=
        (List.dropWhile_sublist _).length_le
      have h2 : (rest.dropWhile (fun x => x = '-')).length ≠ 0 := by
        rename_i hcond
        intro h0
        rw [List.length_eq_zero] at h0
        rw [h0] at hcond
        simp at hcond
      simp only [List.length_tail, List.length_cons]
      omega
    · simp at h

/-- A match somewhere consumes at least one character, so the remainder
shrinks; this justifies the recursion of `splitHr`. -/
theorem findHr_shrinks :
    ∀ {s b a : Str}, findHr s = some (b, a) → a.length < s.length := by
  intro s
  induction s with
  | nil => intro b a h; simp [findHr] at h
  | cons c rest ih =>
    intro b a h
    simp only [findHr] at h
    cases hm : hrMatchAt (c :: rest) with
    | some a' =>
      rw [hm] at h
      simp only [Option.some.injEq, Prod.mk.injEq] at h
      obtain ⟨hb, ha⟩ := h
      subst ha
      exact hrMatchAt_shrinks hm
    | none =>
      rw [hm] at h
      cases hfr : findHr rest with
      | none => rw [hfr] at h; simp at h
      | some pr =>
        rw [hfr] at h
        cases pr with
        | mk b' a' =>
          simp only [Option.some.injEq, Prod.mk.injEq] at h
          obtain ⟨hb, ha⟩ := h
          subst ha
          have := ih hfr
          simp only [List.length_cons]
          omega

/-- JavaScript `content.split(/\n---+\n/)`. -/
def splitHr (s : Str) : List Str :=
  if hfr : (findHr s).isSome then
    ((findHr s).get hfr).1 :: splitHr ((findHr s).get hfr).2
  else [s]
termination_by s.length
decreasing_by
  have h : findHr s = some (((findHr s).get hfr).1, ((findHr s).get hfr).2) := by
    rw [Prod.mk.eta]
    exact (Option.some_get hfr).symm
  exact findHr_shrinks h

/-- The body/footer extraction of the page-read handler (lines 547-555):
when the split has more than one part, the body is all parts but the last
rejoined with a literal newline-three-hyphens-newline and the footer is the
last part; otherwise the body is the whole content and the footer empty. -/
def extractBodyFooter (content : Str) : Str × Str :=
  let parts := splitHr content
  if parts.length > 1 then
    (joinWith "\n---\n".data (parts.dropLast), parts.getLastD [])
  else (content, [])

/-! ## Reference rewriter (rename support, lines 369-418) -/

/-- JavaScript `linkText.replace(new RegExp(oldName, 'gi'), newName)` for a
literal (regex-metacharacter-free) `oldName`, as produced by the validated
page-name alphabet: each non-overlapping, leftmost-first, case-insensitive
occurrence of `old` is replaced by `new`. -/
def ciReplace (old new : Str) : Str → Str
  | [] => []
  | c :: rest =>
    if old ≠ [] ∧ (lowerL old).isPrefixOf (lowerL (c :: rest)) then
      new ++ ciReplace old new (List.drop (old.length - 1) rest)
    else
      c :: ciReplace old new rest
termination_by s => s.length
decreasing_by
  · simp only [List.length_drop, List.length_cons]
    omega
  · simp only [List.length_cons]
    omega

/-- The wikilink substitution of `updatePageReferences` (lines 394-399):
every bracket pair of `/\[\[([^\]]*oldName[^\]]*)\]\]/gi` has the
case-insensitive occurrences of `oldName` in its inner text replaced by
`newName`; the boolean records whether any bracket matched.  The scan
mirrors the regex engine exactly as in `processWikilinks`, except that the
inner text may be empty and must contain `oldName`. -/
def rewriteWikilinks (oldName newName : Str) : Str → Str × Bool
  | [] => ([], false)
  | '[' :: '[' :: rest2 =>
    let inner := rest2.takeWhile notCloseBr
    let after := rest2.dropWhile notCloseBr
    if (after.take 2 = [']', ']'] ∧ containsSubCI oldName inner) then
      let r := rewriteWikilinks oldName newName (after.drop 2)
      ('[' :: '[' :: (ciReplace oldName newName inner ++ ']' :: ']' :: r.1), true)
    else
      let r := rewriteWikilinks oldName newName ('[' :: rest2)
      ('[' :: r.1, r.2)
  | c :: rest =>
    let r := rewriteWikilinks oldName newName rest
    (c :: r.1, r.2)
termination_by s => s.length
decreasing_by
  · have h1 : (rest2.dropWhile notCloseBr).length ≤ rest2.length :=
      (List.dropWhile_sublist _).length_le
    simp only [List.length_drop, List.length_cons]
    omega
  all_goals simp

/-- Case-insensitive match of `oldPath\)` at the head of `t`, returning the
remainder after the closing parenthesis. -/
def mdTryTarget (oldPath t : Str) : Option Str :=
  if (lowerL oldPath).isPrefixOf (lowerL t) ∧
      (t.drop oldPath.length).head? = some ')' then
    some ((t.drop oldPath.length).tail)
  else none

/-- Case-insensitive match of the link-target part `/?oldPath\)` of the
markdown-link regex (line 402) at the head of `s`: optionally consume a
slash (greedily, as `/?` does, backtracking if the rest then fails), then
`oldPath` case-insensitively, then a closing parenthesis. -/
def mdTargetAt (oldPath : Str) (s : Str) : Option Str :=
  match s with
  | '/' :: t =>
    (match mdTryTarget oldPath t with
     | some r => some r
     | none => mdTryTarget oldPath s)
  | _ => mdTryTarget oldPath s

/-- A target match only consumes characters. -/
theorem mdTryTarget_le {p t r : Str} (h : mdTryTarget p t = some r) :
    r.length ≤ t.length := by
  unfold mdTryTarget at h
  split at h
  · simp only [Option.some.injEq] at h
    subst h
    simp only [List.length_tail, List.length_drop]
    omega
  · simp at h

/-- A target match (with or without the slash) only consumes characters. -/
theorem mdTargetAt_le {p s r : Str} (h : mdTargetAt p s = some r) :
    r.length ≤ s.length := by
  unfold mdTargetAt at h
  split at h
  · rename_i t
    cases hmt : mdTryTarget p t with
    | some r' =>
      rw [hmt] at h
      simp only [Option.some.injEq] at h
      subst h
      have := mdTryTarget_le hmt
      simp only [List.length_cons]
      omega
    | none =>
      rw [hmt] at h
      exact mdTryTarget_le h
  · exact mdTryTarget_le h

/-- The markdown-link substitution of `updatePageReferences` (lines
402-406): every match of `/(\[[^\]]+\]\()\/?oldPath(\))/gi` keeps its link
text and replaces the target by `newPath` (dropping any leading slash); the
boolean records whether any link matched. -/
def rewriteMdLinks (oldPath newPath : Str) : Str → Str × Bool
  | [] => ([], false)
  | '[' :: rest =>
    let txt := rest.takeWhile notCloseBr
    let after := rest.dropWhile notCloseBr
    if hmt : after.take 2 = [']', '('] ∧ txt ≠ [] ∧
        (mdTargetAt oldPath (after.drop 2)).isSome then
      let rest3 := (mdTargetAt oldPath (after.drop 2)).get hmt.2.2
      let r := rewriteMdLinks oldPath newPath rest3
      ('[' :: (txt ++ ']' :: '(' :: (newPath ++ ')' :: r.1)), true)
    else
      let r := rewriteMdLinks oldPath newPath rest
      ('[' :: r.1, r.2)
  | c :: rest =>
    let r := rewriteMdLinks oldPath newPath rest
    (c :: r.1, r.2)
termination_by s => s.length
decreasing_by
  · have h1 : (rest.dropWhile notCloseBr).length ≤ rest.length :=
      (List.dropWhile_sublist _).length_le
    have he : after.length = (rest.dropWhile notCloseBr).length := rfl
    have h3 : ((mdTargetAt oldPath ((rest.dropWhile notCloseBr).drop 2)).get hmt.2.2).length ≤
        ((rest.dropWhile notCloseBr).drop 2).length :=
      mdTargetAt_le (Option.some_get hmt.2.2).symm
    simp only [List.length_drop, List.length_cons] at h3 ⊢
    omega
  all_goals simp

/-- The per-page body of `updateDirectory` (lines 390-411): the wikilink
substitution followed by the markdown-link substitution on its result,
with the combined modified flag. -/
def updatePageContent (oldName newName oldPath newPath : Str) (content : Str) :
    Str × Bool :=
  let r1 := rewriteWikilinks oldName newName content
  let r2 := rewriteMdLinks oldPath newPath r1.1
  (r2.1, r1.2 || r2.2)

/-- Whether a page path contains a dot-prefixed segment; such pages live
under entries that the walker of `updatePageReferences` skips. -/
def hiddenPath (p : Str) : Bool :=
  (splitOnChar '/' p).any isDotName

/-- The reference rewriter `updatePageReferences` (lines 369-418) over a
corpus of pages given as (path, raw content) pairs in walk order: derives
the old and new leaf names, rewrites every non-hidden page, and returns the
new corpus together with the paths of the modified (rewritten) pages. -/
def updatePageReferences (oldPath newPath : Str)
    (pages : List (Str × Str)) : List (Str × Str) × List Str :=
  let oldName := lastSegment oldPath
  let newName := lastSegment newPath
  match pages with
  | [] => ([], [])
  | (p, content) :: rest =>
    let r := updatePageReferences oldPath newPath rest
    if hiddenPath p then ((p, content) :: r.1, r.2)
    else
      let u := updatePageContent oldName newName oldPath newPath content
      ((p, u.1) :: r.1, if u.2 then p :: r.2 else r.2)

/-! ## Page store handlers -/

/-- Error outcomes of the mutating handlers, section 7's taxonomy. -/
inductive WikiError where
  | required
  | forbidden
  | invalidName
  | alreadyExists
  | notFound
deriving DecidableEq

/-- The validation regex `/^[a-z0-9-]+$/i` of the rename handler
(line 766). -/
def isValidName (s : Str) : Bool :=
  !s.isEmpty && s.all (fun c => c.isAlpha || c.isDigit || c = '-')

/-- The `POST /api/rename` handler's control flow (lines 752-822) over an
abstract set of existing pages (`pageExists` is membership of the path in
`pages`): missing-argument check, home protection, name validation, new
path construction by replacing the last segment with the lowercased new
name, collision check, then existence check of the old page; on success the
new path is returned. -/
def renamePage (oldPath newName : Str) (pages : List Str) :
    Except WikiError Str :=
  if oldPath = [] ∨ newName = [] then .error .required
  else if oldPath = "home".data then .error .forbidden
  else if ¬ isValidName newName then .error .invalidName
  else
    let parts := splitOnChar '/' oldPath
    let newPath := joinWith ['/'] (parts.dropLast ++ [lowerL newName])
    if newPath ∈ pages then .error .alreadyExists
    else if oldPath ∉ pages then .error .notFound
    else .ok newPath

/-- The `DELETE /api/page/*` handler (lines 656-693) over an abstract page
set: forbidden for the home page; otherwise the page's own markdown file
(if any) and every page strictly below its directory (if any) are removed,
and missing files are not an error. -/
def deletePage (pagePath : Str) (pages : List Str) :
    Except WikiError (List Str) :=
  if pagePath = "home".data then .error .forbidden
  else
    .ok (pages.filter
      (fun p => ¬ (p = pagePath ∨ (pagePath ++ ['/']).isPrefixOf p)))

/-! ## Save, create and the in-memory index (frame behaviour) -/

/-- Whether an entry list has a file of the given name. -/
def hasFileNamed (fname : Str) : List FsEntry → Bool
  | [] => false
  | .file n :: rest => n = fname || hasFileNamed fname rest
  | .dir _ _ :: rest => hasFileNamed fname rest

/-- Replace the entry list of the first directory with the given name. -/
def replaceFirstDir (dname : Str) (newEntries : List FsEntry) :
    List FsEntry → List FsEntry
  | [] => []
  | .file n :: rest => .file n :: replaceFirstDir dname newEntries rest
  | .dir n es :: rest =>
    if n = dname then .dir n newEntries :: rest
    else .dir n es :: replaceFirstDir dname newEntries rest

/-- The first directory with the given name, fs-lookup flavour (no dot
filtering; plain `path.join` navigation). -/
def lookupDir (dname : Str) : List FsEntry → Option (List FsEntry)
  | [] => none
  | .file _ :: rest => lookupDir dname rest
  | .dir n es :: rest => if n = dname then some es else lookupDir dname rest

/-- `fs.mkdir(dir, recursive)` followed by `fs.writeFile` for the page at
the given path segments: missing directories are created, and the final
`.md` file is created when absent (overwriting contents does not change
the name structure that the index and tree read). -/
def writeFileFs : List Str → List FsEntry → List FsEntry
  | [], entries => entries
  | [leaf], entries =>
    if hasFileNamed (leaf ++ ".md".data) entries then entries
    else entries ++ [.file (leaf ++ ".md".data)]
  | seg :: seg2 :: rest, entries =>
    match lookupDir seg entries with
    | some es => replaceFirstDir seg (writeFileFs (seg2 :: rest) es) entries
    | none => entries ++ [.dir seg (writeFileFs (seg2 :: rest) [])]

/-- `fs.access(PAGES_DIR, pagePath + '.md')`: whether the markdown file at
the given path segments exists. -/
def pageExistsFs : List Str → List FsEntry → Bool
  | [], _ => false
  | [leaf], entries => hasFileNamed (leaf ++ ".md".data) entries
  | seg :: seg2 :: rest, entries =>
    match lookupDir seg entries with
    | some es => pageExistsFs (seg2 :: rest) es
    | none => false

/-- The server's mutable state relevant to the claims: the pages root and
the global in-memory `pageIndex`. -/
structure WikiState where
  fs : List FsEntry
  pageIndex : List (Str × Str)

/-- The `POST /api/page/*` save handler (lines 578-602): create parent
directories as needed and write the file.  It does not touch `pageIndex`.
File contents are not tracked, as no claim depends on them. -/
def savePage (st : WikiState) (pagePath : Str) : WikiState :=
  { st with fs := writeFileFs (splitOnChar '/' pagePath) st.fs }

/-- The `POST /api/create` handler (lines 619-653): reject an existing
target, otherwise write the stub file and rebuild the page index. -/
def createPage (st : WikiState) (pagePath : Str) : Except WikiError WikiState :=
  if pageExistsFs (splitOnChar '/' pagePath) st.fs then .error .alreadyExists
  else
    let fs2 := writeFileFs (splitOnChar '/' pagePath) st.fs
    .ok { fs := fs2, pageIndex := buildPageIndex fs2 }

/-! ## Helper lemmas -/

theorem char_toNat_ofNat (n : Nat) (h : n.isValidChar) : (Char.ofNat n).toNat = n := by
  unfold Char.ofNat
  rw [dif_pos h]
  simp [Char.ofNatAux, Char.toNat, UInt32.toNat, BitVec.toNat_ofNatLt]

/-- Lowercasing a character of the validated page-name alphabet never
produces whitespace. -/
theorem toLower_not_ws (c : Char) (h : (c.isAlpha || c.isDigit || decide (c = '-')) = true) :
    (Char.toLower c).isWhitespace = false := by
  cases hws : (Char.toLower c).isWhitespace with
  | false => rfl
  | true =>
    exfalso
    simp only [Char.isWhitespace, Bool.or_eq_true, decide_eq_true_eq] at hws
    unfold Char.toLower at hws
    by_cases hc : c.toNat ≥ 65 ∧ c.toNat ≤ 90
    · rw [if_pos hc] at hws
      have hval : Nat.isValidChar (c.toNat + 32) := by
        left
        omega
      rcases hws with ((h1 | h1) | h1) | h1
      · have h2 := congrArg Char.toNat h1
        rw [char_toNat_ofNat _ hval, show (' ').toNat = 32 by decide] at h2
        omega
      · have h2 := congrArg Char.toNat h1
        rw [char_toNat_ofNat _ hval, show ('\t').toNat = 9 by decide] at h2
        omega
      · have h2 := congrArg Char.toNat h1
        rw [char_toNat_ofNat _ hval, show ('\x0d').toNat = 13 by decide] at h2
        omega
      · have h2 := congrArg Char.toNat h1
        rw [char_toNat_ofNat _ hval, show ('\n').toNat = 10 by decide] at h2
        omega
    · rw [if_neg hc] at hws
      rcases hws with ((h1 | h1) | h1) | h1 <;> subst h1 <;> exact absurd h (by decide)

theorem collapseWs_of_no_ws : ∀ s : Str, (∀ c ∈ s, c.isWhitespace = false) →
    collapseWs false s = s := by
  intro s
  induction s with
  | nil => intro _; rfl
  | cons c rest ih =>
    intro h
    have hc := h c (by simp)
    simp only [collapseWs, hc, Bool.false_eq_true, if_false]
    rw [ih (fun x hx => h x (by simp [hx]))]

/-- On a name accepted by the rename validation, the specification's
normalizer coincides with plain lowercasing, since the validated alphabet
contains no whitespace. -/
theorem specNormalize_of_valid (s : Str) (h : isValidName s = true) :
    specNormalize s = lowerL s := by
  unfold specNormalize
  apply collapseWs_of_no_ws
  intro c hc
  simp only [lowerL, List.mem_map] at hc
  obtain ⟨c0, hc0, rfl⟩ := hc
  apply toLower_not_ws
  unfold isValidName at h
  simp only [Bool.and_eq_true, List.all_eq_true] at h
  exact h.2 c0 hc0

theorem splitOnChar_ne_nil (sep : Char) (s : Str) : splitOnChar sep s ≠ [] := by
  cases s with
  | nil => simp [splitOnChar]
  | cons c rest =>
    simp only [splitOnChar]
    split <;> split <;> simp

/-! ## C5: rename error precedence -/

/-- C5: for provided (nonempty) arguments, `rename(oldPath, newName)` fails
with Forbidden when oldPath is the home page; otherwise fails with
InvalidName unless newName matches the letters-digits-hyphens pattern;
otherwise computes newPath by replacing only the last segment of oldPath
with the normalized newName, fails with AlreadyExists when a page exists at
newPath, fails with NotFound when no page exists at oldPath, and succeeds
otherwise. -/
theorem renamePage_spec (oldPath newName : Str) (pages : List Str)
    (h1 : oldPath ≠ []) (h2 : newName ≠ []) :
    renamePage oldPath newName pages =
      (if oldPath = "home".data then .error .forbidden
       else if ¬ isValidName newName then .error .invalidName
       else
         let newPath := joinWith ['/']
           ((splitOnChar '/' oldPath).dropLast ++ [specNormalize newName])
         if newPath ∈ pages then .error .alreadyExists
         else if oldPath ∉ pages then .error .notFound
         else .ok newPath) := by
  unfold renamePage
  rw [if_neg (by simp [h1, h2])]
  by_cases hh : oldPath = "home".data
  · simp [hh]
  · rw [if_neg hh, if_neg hh]
    by_cases hv : isValidName newName
    · simp only [specNormalize_of_valid _ hv, hv, not_true, if_false, ite_false,
        Bool.true_eq_false, not_false_iff, ite_true]
    · simp [hv]

/-- Witness for C5 at a concrete input. -/
theorem renamePage_spec_witness :
    ("guides/old-name".data ≠ ([] : Str)) ∧ ("New-Name".data ≠ ([] : Str)) ∧
    renamePage "guides/old-name".data "New-Name".data ["guides/old-name".data] =
      Except.ok "guides/new-name".data := by
  refine ⟨by decide, by decide, ?_⟩
  rw [renamePage_spec _ _ _ (by decide) (by decide)]
  rfl

/-! ## C6: delete semantics -/

/-- C6: `delete(path)` fails with Forbidden exactly when path is the home
page; for any other path it succeeds, and the surviving pages are exactly
those that are neither the deleted page itself nor below its directory —
deleting a page-parent removes its whole subtree, and deleting an absent
page still succeeds. -/
theorem deletePage_spec (pagePath : Str) (pages : List Str) :
    (deletePage pagePath pages = .error .forbidden ↔ pagePath = "home".data) ∧
    (pagePath ≠ "home".data →
      ∃ remaining, deletePage pagePath pages = .ok remaining ∧
        ∀ q, q ∈ remaining ↔
          q ∈ pages ∧ ¬ (q = pagePath ∨ (pagePath ++ ['/']).isPrefixOf q)) := by
  constructor
  · constructor
    · intro h
      by_contra hne
      simp only [deletePage, if_neg hne] at h
      exact Except.noConfusion h
    · intro h
      simp [deletePage, h]
  · intro hne
    simp only [deletePage, if_neg hne]
    refine ⟨_, rfl, ?_⟩
    intro q
    simp [List.mem_filter, not_or]

/-- Witness for C6 at a concrete input. -/
theorem deletePage_spec_witness :
    ("a".data ≠ "home".data) ∧
    ∃ remaining,
      deletePage "a".data ["a".data, "a/b".data, "ab".data, "home".data] =
        .ok remaining ∧
      ∀ q, q ∈ remaining ↔
        q ∈ ["a".data, "a/b".data, "ab".data, "home".data] ∧
          ¬ (q = "a".data ∨ ("a".data ++ ['/']).isPrefixOf q) :=
  ⟨by decide, (deletePage_spec "a".data _).2 (by decide)⟩

/-! ## C10: save leaves the index unchanged -/

theorem hasFileNamed_append_self (f : Str) :
    ∀ l : List FsEntry, hasFileNamed f (l ++ [.file f]) = true := by
  intro l
  induction l with
  | nil => simp [hasFileNamed]
  | cons e rest ih =>
    cases e with
    | file n => simp [hasFileNamed, ih]
    | dir n es => simp [hasFileNamed, ih]

theorem lookupDir_replaceFirstDir (d : Str) (newEs : List FsEntry) :
    ∀ l es0, lookupDir d l = some es0 →
      lookupDir d (replaceFirstDir d newEs l) = some newEs := by
  intro l
  induction l with
  | nil => intro es0 h; simp [lookupDir] at h
  | cons e rest ih =>
    intro es0 h
    cases e with
    | file n =>
      simp only [lookupDir, replaceFirstDir] at h ⊢
      exact ih es0 h
    | dir n es =>
      simp only [lookupDir, replaceFirstDir] at h ⊢
      by_cases hn : n = d
      · simp [hn, lookupDir]
      · rw [if_neg hn] at h ⊢
        simp only [lookupDir, if_neg hn]
        exact ih es0 h

theorem lookupDir_append_dir (d : Str) (es : List FsEntry) :
    ∀ l, lookupDir d l = none →
      lookupDir d (l ++ [.dir d es]) = some es := by
  intro l
  induction l with
  | nil => intro _; simp [lookupDir]
  | cons e rest ih =>
    intro h
    cases e with
    | file n =>
      simp only [lookupDir] at h ⊢
      exact ih h
    | dir n es2 =>
      simp only [lookupDir] at h ⊢
      by_cases hn : n = d
      · rw [if_pos hn] at h
        exact Option.noConfusion h
      · rw [if_neg hn] at h ⊢
        exact ih h

theorem writeFileFs_creates :
    ∀ (segs : List Str) (entries : List FsEntry), segs ≠ [] →
      pageExistsFs segs (writeFileFs segs entries) = true := by
  intro segs entries
  induction segs, entries using writeFileFs.induct with
  | case1 entries => intro h; exact absurd rfl h
  | case2 leaf entries hf =>
    intro _
    simp [writeFileFs, hf, pageExistsFs]
  | case3 leaf entries hf =>
    intro _
    simp only [writeFileFs, if_neg hf, pageExistsFs]
    exact hasFileNamed_append_self _ _
  | case4 seg seg2 rest entries es hlk ih =>
    intro _
    simp only [writeFileFs, hlk, pageExistsFs]
    rw [lookupDir_replaceFirstDir _ _ _ _ hlk]
    exact ih (by simp)
  | case5 seg seg2 rest entries hlk ih =>
    intro _
    simp only [writeFileFs, hlk, pageExistsFs]
    rw [lookupDir_append_dir _ _ _ hlk]
    exact ih (by simp)

/-- C10: saving a page writes the file (creating it when absent) but leaves
the in-memory page index untouched, so every index lookup — and therefore
every wikilink resolution — is unchanged by a save; the index only catches
up when an operation such as create rebuilds it from the new file system. -/
theorem savePage_index_frame (st : WikiState) (pagePath : Str) :
    (savePage st pagePath).pageIndex = st.pageIndex ∧
    (∀ k, alistLookup k (savePage st pagePath).pageIndex =
      alistLookup k st.pageIndex) ∧
    (∀ cur inner, resolveWikilink (savePage st pagePath).pageIndex cur inner =
      resolveWikilink st.pageIndex cur inner) ∧
    pageExistsFs (splitOnChar '/' pagePath) (savePage st pagePath).fs = true ∧
    (∀ st2, createPage st pagePath = .ok st2 →
      st2.pageIndex = buildPageIndex st2.fs) := by
  refine ⟨rfl, fun k => rfl, fun cur inner => rfl, ?_, ?_⟩
  · exact writeFileFs_creates _ _ (splitOnChar_ne_nil _ _)
  · intro st2 h
    unfold createPage at h
    split at h
    · exact Except.noConfusion h
    · simp only [Except.ok.injEq] at h
      subst h
      rfl

/-- Witness for C10 at a concrete input. -/
theorem savePage_index_frame_witness :
    createPage ⟨[], []⟩ "a".data =
      .ok ⟨[.file "a.md".data], buildPageIndex [.file "a.md".data]⟩ ∧
    (WikiState.mk [.file "a.md".data] (buildPageIndex [.file "a.md".data])).pageIndex =
      buildPageIndex
        (WikiState.mk [.file "a.md".data] (buildPageIndex [.file "a.md".data])).fs :=
  ⟨rfl, (savePage_index_frame ⟨[], []⟩ "a".data).2.2.2.2 _ rfl⟩

/-! ## C8: wikilink inner-text parsing -/

theorem mem_jsTrim (s : Str) (c : Char) (h : c ∈ jsTrim s) : c ∈ s := by
  unfold jsTrim at h
  rw [List.mem_reverse] at h
  have h2 := (List.dropWhile_sublist (p := Char.isWhitespace)).subset h
  rw [List.mem_reverse] at h2
  exact (List.dropWhile_sublist _).subset h2

theorem splitOnChar_headD (sep : Char) :
    ∀ b : Str, (splitOnChar sep b)[0]?.getD [] = b.takeWhile (fun c => c ≠ sep) := by
  intro b
  induction b with
  | nil => rfl
  | cons c rest ih =>
    simp only [splitOnChar]
    rcases h : splitOnChar sep rest with _ | ⟨p, ps⟩
    · exact absurd h (splitOnChar_ne_nil sep rest)
    · rw [h] at ih
      by_cases hc : c = sep
      · simp [hc]
      · simp only [if_neg hc, List.takeWhile_cons]
        simp only [List.getElem?_cons_zero, Option.getD_some] at ih ⊢
        simp [hc, ih]

theorem splitOnChar_append_sep (sep : Char) :
    ∀ a b : Str, sep ∉ a →
      splitOnChar sep (a ++ sep :: b) = a :: splitOnChar sep b := by
  intro a
  induction a with
  | nil =>
    intro b _
    simp only [List.nil_append, splitOnChar]
    rcases h : splitOnChar sep b with _ | ⟨p, ps⟩
    · exact absurd h (splitOnChar_ne_nil sep b)
    · simp
  | cons x a' ih =>
    intro b hx
    have hxs : x ≠ sep := fun hc => hx (by simp [hc])
    have hs : sep ∉ a' := fun hc => hx (by simp [hc])
    simp only [List.cons_append, splitOnChar, List.append_eq]
    rw [ih b hs]
    simp [hxs]

/-- C8 counterexample: for the inner text ` a |b|c`, the code trims before
normalizing (target `a`, not the normalization `-a-` of the untrimmed left
side) and the display text is only the segment between the first and second
pipes (`b`, not the full right side `b|c`). -/
theorem wikilinkParts_cex :
    wikilinkParts " a |b|c".data = ("a".data, "b".data) ∧
    "a".data ≠ specNormalize " a ".data ∧
    "b".data ≠ "b|c".data := by
  decide

/-- C8 (amended): the inner text is first trimmed; with no pipe the display
text is the trimmed inner text and the target its normalized form; with a
pipe, the target is the normalized trim of the segment before the first
pipe and the display text the trimmed segment between the first and second
pipes (text after a second pipe is dropped). -/
theorem wikilinkParts_amended :
    (∀ inner : Str, '|' ∉ inner →
        wikilinkParts inner = (specNormalize (jsTrim inner), jsTrim inner)) ∧
    (∀ inner a b : Str, jsTrim inner = a ++ '|' :: b → '|' ∉ a →
        wikilinkParts inner =
          (specNormalize (jsTrim a),
           jsTrim (b.takeWhile (fun c => c ≠ '|')))) := by
  constructor
  · intro inner hp
    have hmem : '|' ∉ jsTrim inner := fun hmem => hp (mem_jsTrim _ _ hmem)
    have hc : (jsTrim inner).contains '|' = false := by simpa using hmem
    simp [wikilinkParts, hc, hmem]
  · intro inner a b hdec hpa
    have hc : (jsTrim inner).contains '|' = true := by
      rw [hdec]
      simp
    simp only [wikilinkParts, hc, if_pos]
    rw [hdec, splitOnChar_append_sep _ _ _ hpa]
    simp [splitOnChar_headD]

/-- Witness for C8 at a concrete input. -/
theorem wikilinkParts_amended_witness :
    (jsTrim " a |b|c".data = "a ".data ++ '|' :: "b|c".data) ∧
    wikilinkParts " a |b|c".data =
      (specNormalize (jsTrim "a ".data),
       jsTrim ("b|c".data.takeWhile (fun c => c ≠ '|'))) :=
  ⟨by decide, wikilinkParts_amended.2 " a |b|c".data "a ".data "b|c".data
    (by decide) (by decide)⟩

/-! ## C1: wikilink resolution against the index -/

/-- Scanning splits cleanly around an all-accepted prefix. -/
theorem scan_split (p : Char → Bool) :
    ∀ l y : Str, (∀ c ∈ l, p c = true) →
      (l ++ y).takeWhile p = l ++ y.takeWhile p ∧
      (l ++ y).dropWhile p = y.dropWhile p := by
  intro l
  induction l with
  | nil => intro y _; simp
  | cons c rest ih =>
    intro y h
    have hc := h c (by simp)
    have := ih y (fun x hx => h x (by simp [hx]))
    simp [List.takeWhile_cons, List.dropWhile_cons, hc, this.1, this.2]

/-- C1 counterexample: with `foo -> computers/foo` indexed, current page
`home` and the wikilink inner text ` Foo `, the claim's normalized target
`-foo-` (lowercased, whitespace runs to hyphens, no trimming) is absent
from the index, so the claim predicts a non-existing link targeting the
bare name `-foo-`; the code trims first, finds `foo` in the index, and
emits an existing link to `computers/foo`. -/
theorem processWikilinks_cex :
    specNormalize " Foo ".data = "-foo-".data ∧
    alistLookup "-foo-".data [("foo".data, "computers/foo".data)] = none ∧
    processWikilinks [("foo".data, "computers/foo".data)] "home".data "[[ Foo ]]".data =
      ("<a href=\"/computers/foo\" class=\"wikilink\" data-page=\"computers/foo\" data-exists=\"true\">Foo</a>").data ∧
    ("<a href=\"/computers/foo\" class=\"wikilink\" data-page=\"computers/foo\" data-exists=\"true\">Foo</a>").data ≠
      linkHtml "-foo-".data false " Foo ".data := by
  refine ⟨by decide, by decide, ?_, by decide⟩
  simp [processWikilinks, notCloseBr, resolveWikilink, wikilinkParts, jsTrim, specNormalize,
    lowerL, collapseWs, alistLookup, linkHtml, List.dropWhile, List.takeWhile]

/-- C1 (amended): a wikilink resolves through the trimmed, normalized
target: a truthy index hit yields an anchor to the indexed path marked
existing; otherwise the anchor is marked non-existing and targets the bare
name when the current page is absent or the home page, and
`currentPagePath/name` elsewhere. -/
theorem processWikilinks_resolution (idx : List (Str × Str)) (cur inner : Str)
    (hne : inner ≠ []) (hnb : ∀ c ∈ inner, c ≠ ']') :
    processWikilinks idx cur ('[' :: '[' :: (inner ++ [']', ']'])) =
      linkHtml (resolveWikilink idx cur inner).1 (resolveWikilink idx cur inner).2
        (wikilinkParts inner).2 ∧
    (∀ t, alistLookup (wikilinkParts inner).1 idx = some t → t ≠ [] →
      resolveWikilink idx cur inner = (t, true)) ∧
    (truthy (alistLookup (wikilinkParts inner).1 idx) = false →
      resolveWikilink idx cur inner =
        ((if cur = [] ∨ cur = "home".data then (wikilinkParts inner).1
          else cur ++ '/' :: (wikilinkParts inner).1), false)) := by
  refine ⟨?_, ?_, ?_⟩
  · have hb : ∀ c ∈ inner, notCloseBr c = true := by
      intro c hc
      simp [notCloseBr, hnb c hc]
    have hsp := scan_split notCloseBr inner [']', ']'] hb
    simp only [processWikilinks, hsp.1, hsp.2]
    rw [show List.takeWhile notCloseBr [']', ']'] = [] from rfl,
      show List.dropWhile notCloseBr [']', ']'] = [']', ']'] from rfl]
    rw [List.append_nil]
    rw [if_pos ⟨rfl, hne⟩]
    simp [processWikilinks]
  · intro t ht htne
    simp [resolveWikilink, ht, htne]
  · intro htr
    have hgd : (alistLookup (wikilinkParts inner).1 idx).getD [] = [] := by
      cases h : alistLookup (wikilinkParts inner).1 idx with
      | none => rfl
      | some v =>
        rw [h] at htr
        simp only [truthy, Bool.not_eq_true'] at htr
        simpa using htr
    by_cases hcc : cur = [] ∨ cur = "home".data <;>
      simp [resolveWikilink, hgd, hcc]

/-- Witness for C1 at a concrete input. -/
theorem processWikilinks_resolution_witness :
    processWikilinks [("atari".data, "computers/atari".data)] "x".data
        ('[' :: '[' :: ("Atari".data ++ [']', ']'])) =
      linkHtml "computers/atari".data true "Atari".data ∧
    resolveWikilink [("atari".data, "computers/atari".data)] "x".data "Atari".data =
      ("computers/atari".data, true) := by
  have h := processWikilinks_resolution [("atari".data, "computers/atari".data)] "x".data
    "Atari".data (by decide) (by decide)
  exact ⟨h.1.trans (by decide), h.2.1 "computers/atari".data (by decide) (by decide)⟩

/-! ## C7: body and footer split -/

theorem hrMatchAt_delim (k : Nat) (c : Str) (hk : 3 ≤ k) :
    hrMatchAt ('\n' :: (List.replicate k '-' ++ '\n' :: c)) = some c := by
  have hall : ∀ x ∈ List.replicate k '-', (fun y => decide (y = '-')) x = true := by
    intro x hx
    simp [List.eq_of_mem_replicate hx]
  have hsp := scan_split (fun y => decide (y = '-')) (List.replicate k '-') ('\n' :: c) hall
  simp only [hrMatchAt, hsp.1, hsp.2]
  simp [hk]

theorem findHr_cons_none {x : Char} {t : Str} (h : findHr (x :: t) = none) :
    findHr t = none ∧ hrMatchAt (x :: t) = none := by
  simp only [findHr] at h
  cases hm : hrMatchAt (x :: t) with
  | some a => rw [hm] at h; exact Option.noConfusion h
  | none =>
    rw [hm] at h
    cases hf : findHr t with
    | none => exact ⟨rfl, rfl⟩
    | some pr =>
      rw [hf] at h
      cases pr
      exact Option.noConfusion h

theorem findHr_before_delim :
    ∀ (a : Str) (k : Nat) (c : Str), 3 ≤ k → findHr (a ++ ['\n']) = none →
      findHr (a ++ '\n' :: (List.replicate k '-' ++ '\n' :: c)) = some (a, c) := by
  intro a
  induction a with
  | nil =>
    intro k c hk _
    simp only [List.nil_append, findHr, hrMatchAt_delim k c hk]
  | cons x a' ih =>
    intro k c hk hnone
    obtain ⟨hnone', hmz⟩ := findHr_cons_none hnone
    have hih := ih k c hk hnone'
    simp only [List.cons_append, findHr, List.append_eq]
    have hm2 : hrMatchAt (x :: (a' ++ '\n' :: (List.replicate k '-' ++ '\n' :: c))) = none := by
      simp only [hrMatchAt, List.append_eq] at hmz ⊢
      by_cases hall : ∀ ch ∈ a', (fun y => decide (y = '-')) ch = true
      · have hsp := scan_split (fun y => decide (y = '-')) a'
          ('\n' :: (List.replicate k '-' ++ '\n' :: c)) hall
        have hsp2 := scan_split (fun y => decide (y = '-')) a' ['\n'] hall
        rw [hsp.1, hsp.2]
        rw [hsp2.1, hsp2.2] at hmz
        rw [show List.dropWhile (fun y => decide (y = '-'))
              ('\n' :: (List.replicate k '-' ++ '\n' :: c)) =
            '\n' :: (List.replicate k '-' ++ '\n' :: c) from rfl,
          show List.takeWhile (fun y => decide (y = '-'))
              ('\n' :: (List.replicate k '-' ++ '\n' :: c)) = [] from rfl]
        rw [show List.dropWhile (fun y => decide (y = '-')) ['\n'] = ['\n'] from rfl,
          show List.takeWhile (fun y => decide (y = '-')) ['\n'] = [] from rfl] at hmz
        by_cases hcond : x = '\n' ∧ (a' ++ ([] : Str)).length ≥ 3
        · rw [if_pos ⟨hcond.1, rfl, hcond.2⟩] at hmz
          exact Option.noConfusion hmz
        · rw [if_neg (fun hc => hcond ⟨hc.1, hc.2.2⟩)]
      · have hne : List.dropWhile (fun y => decide (y = '-')) a' ≠ [] := by
          rw [Ne, List.dropWhile_eq_nil_iff]
          simpa using hall
        have hemp : ¬ ((List.dropWhile (fun y => decide (y = '-')) a').isEmpty = true) := by
          simpa using hne
        rw [List.dropWhile_append, List.takeWhile_append] at hmz ⊢
        rw [if_neg hemp] at hmz ⊢
        have hlen : ¬ (List.takeWhile (fun y => decide (y = '-')) a').length = a'.length := by
          intro hl
          have heq := (List.takeWhile_prefix _).eq_of_length hl
          rw [List.takeWhile_eq_self_iff] at heq
          exact hall heq
        rw [if_neg hlen] at hmz ⊢
        rcases hdw : List.dropWhile (fun y => decide (y = '-')) a' with _ | ⟨d, ds⟩
        · exact absurd hdw hne
        · rw [hdw] at hmz
          simp only [List.cons_append, List.head?_cons] at hmz ⊢
          by_cases hcond : x = '\n' ∧ some d = some '\n' ∧
              (List.takeWhile (fun y => decide (y = '-')) a').length ≥ 3
          · rw [if_pos hcond] at hmz
            exact Option.noConfusion hmz
          · rw [if_neg hcond]
    rw [hm2, hih]

theorem splitHr_of_some {s b a : Str} (h : findHr s = some (b, a)) :
    splitHr s = b :: splitHr a := by
  rw [splitHr]
  rw [dif_pos (by simp [h])]
  congr 1 <;> simp [h]

theorem splitHr_of_none {s : Str} (h : findHr s = none) : splitHr s = [s] := by
  rw [splitHr]
  rw [dif_neg (by simp [h])]

/-- C7 counterexample: in `a\n---\nb` the hyphen line is delimited by plain
newlines, not blank lines, so the claim predicts no delimiter (footer empty,
body the whole content); the code splits there and returns footer `b`. -/
theorem extractBodyFooter_cex :
    extractBodyFooter "a\n---\nb".data = ("a".data, "b".data) ∧
    ("a".data, "b".data) ≠ ("a\n---\nb".data, ([] : Str)) := by
  refine ⟨?_, by decide⟩
  simp [extractBodyFooter, splitHr, findHr, hrMatchAt, joinWith, List.dropWhile,
    List.takeWhile]

/-- C7 (amended): the read handler splits on occurrences of a newline, three
or more hyphens, and a newline (no surrounding blank lines required): with no
such delimiter the body is the whole content and the footer empty; with
delimiters, the footer is everything after the last one and the body is the
parts before it rejoined with a literal newline-three-hyphens-newline (so a
longer interior delimiter is normalized to three hyphens). -/
theorem extractBodyFooter_amended :
    (∀ content : Str, findHr content = none →
        extractBodyFooter content = (content, [])) ∧
    (∀ (a c : Str) (k : Nat), 3 ≤ k → findHr (a ++ ['\n']) = none →
        findHr c = none →
        extractBodyFooter (a ++ '\n' :: (List.replicate k '-' ++ '\n' :: c)) =
          (a, c)) ∧
    (∀ (a b c : Str) (k1 k2 : Nat), 3 ≤ k1 → 3 ≤ k2 →
        findHr (a ++ ['\n']) = none → findHr (b ++ ['\n']) = none →
        findHr c = none →
        extractBodyFooter
          (a ++ '\n' :: (List.replicate k1 '-' ++ '\n' ::
            (b ++ '\n' :: (List.replicate k2 '-' ++ '\n' :: c)))) =
          (a ++ "\n---\n".data ++ b, c)) := by
  refine ⟨?_, ?_, ?_⟩
  · intro content h
    simp [extractBodyFooter, splitHr_of_none h]
  · intro a c k hk ha hc
    have h1 := findHr_before_delim a k c hk ha
    simp [extractBodyFooter, splitHr_of_some h1, splitHr_of_none hc, joinWith]
  · intro a b c k1 k2 hk1 hk2 ha hb hc
    have h2 := findHr_before_delim b k2 c hk2 hb
    have h1 := findHr_before_delim a k1 (b ++ '\n' :: (List.replicate k2 '-' ++ '\n' :: c))
      hk1 ha
    simp [extractBodyFooter, splitHr_of_some h1, splitHr_of_some h2, splitHr_of_none hc,
      joinWith]

/-- Witness for C7 at a concrete input. -/
theorem extractBodyFooter_amended_witness :
    extractBodyFooter
        ("x".data ++ '\n' :: (List.replicate 3 '-' ++ '\n' ::
          ("y".data ++ '\n' :: (List.replicate 4 '-' ++ '\n' :: "z".data)))) =
      ("x".data ++ "\n---\n".data ++ "y".data, "z".data) :=
  extractBodyFooter_amended.2.2 "x".data "y".data "z".data 3 4 (by decide) (by decide)
    (by decide) (by decide) (by decide)

/-! ## C3 and C9: page index characterization -/

theorem scanDirectory_eq_foldl :
    ∀ (idx : List (Str × Str)) (rp : Str) (entries : List FsEntry),
      scanDirectory idx rp entries = (walkDirectory rp entries).foldl applyPage idx := by
  intro idx rp entries
  induction idx, rp, entries using scanDirectory.induct with
  | case1 idx rp => simp [scanDirectory, walkDirectory]
  | case2 idx rp name rest ih =>
    by_cases hmd : endsWithMd name = true
    · rw [show scanDirectory idx rp (.file name :: rest) =
          scanDirectory (indexInsertPage idx (dropExt3 (joinRel rp name)) (dropExt3 name))
            rp rest from by simp [scanDirectory, hmd]]
      rw [show walkDirectory rp (.file name :: rest) =
          (dropExt3 (joinRel rp name), dropExt3 name) :: walkDirectory rp rest
          from by simp [walkDirectory, hmd]]
      rw [List.foldl_cons]
      simpa [hmd, applyPage] using ih
    · rw [show scanDirectory idx rp (.file name :: rest) = scanDirectory idx rp rest
          from by simp [scanDirectory, hmd]]
      rw [show walkDirectory rp (.file name :: rest) = walkDirectory rp rest
          from by simp [walkDirectory, hmd]]
      simpa [hmd] using ih
  | case3 idx rp name entries2 rest ih1 ih2 =>
    rw [show scanDirectory idx rp (.dir name entries2 :: rest) =
        scanDirectory (scanDirectory idx (joinRel rp name) entries2) rp rest
        from by simp [scanDirectory]]
    rw [show walkDirectory rp (.dir name entries2 :: rest) =
        walkDirectory (joinRel rp name) entries2 ++ walkDirectory rp rest
        from by simp [walkDirectory]]
    rw [ih2, ih1, List.foldl_append]

theorem applyPage_keeps_values {idx : List (Str × Str)} {pr : Str × Str}
    (hinv : ∀ k v, alistLookup k idx = some v → v ≠ []) (hne : pr.1 ≠ []) :
    ∀ k v, alistLookup k (applyPage idx pr) = some v → v ≠ [] := by
  intro k v h
  unfold applyPage indexInsertPage at h
  simp only [alistLookup] at h
  split at h
  · cases h
    exact hne
  · split at h
    · exact hinv _ _ h
    · simp only [alistLookup] at h
      split at h
      · cases h
        exact hne
      · exact hinv _ _ h

theorem foldl_applyPage_lookup :
    ∀ (ps : List (Str × Str)) (idx : List (Str × Str)) (k : Str),
      (∀ pr ∈ ps, pr.1 ≠ []) →
      (∀ k2 v, alistLookup k2 idx = some v → v ≠ []) →
      alistLookup k (ps.foldl applyPage idx) =
        (match lastPathMatch ps k with
         | some p => some p
         | none =>
           match alistLookup k idx with
           | some v => some v
           | none => firstLeafMatch ps k) := by
  intro ps
  induction ps with
  | nil =>
    intro idx k _ _
    simp only [List.foldl_nil, lastPathMatch, firstLeafMatch, List.filter_nil,
      List.getLast?_nil, Option.map_none', List.head?_nil]
    cases alistLookup k idx <;> rfl
  | cons pr rest ih =>
    intro idx k hps hinv
    have hne : pr.1 ≠ [] := hps pr (by simp)
    have hrest : ∀ q ∈ rest, q.1 ≠ [] := fun q hq => hps q (by simp [hq])
    have hinv2 := applyPage_keeps_values hinv hne
    rw [List.foldl_cons, ih (applyPage idx pr) k hrest hinv2]
    by_cases hpk : lowerL pr.1 = k
    · have hlk : alistLookup k (applyPage idx pr) = some pr.1 := by
        unfold applyPage indexInsertPage
        simp [alistLookup, hpk]
      rw [hlk]
      have hfil : List.filter (fun q => decide (lowerL q.1 = k)) (pr :: rest) =
          pr :: List.filter (fun q => decide (lowerL q.1 = k)) rest := by
        simp [List.filter_cons, hpk]
      cases hrf : lastPathMatch rest k with
      | some p =>
        have h2 : lastPathMatch (pr :: rest) k = some p := by
          unfold lastPathMatch at hrf ⊢
          rw [hfil]
          rcases hfl : List.filter (fun q => decide (lowerL q.1 = k)) rest with _ | ⟨q, qs⟩
          · rw [hfl] at hrf
            simp at hrf
          · rw [hfl] at hrf ⊢
            rw [List.getLast?_cons_cons]
            exact hrf
        rw [h2]
      | none =>
        have hfl : List.filter (fun q => decide (lowerL q.1 = k)) rest = [] := by
          unfold lastPathMatch at hrf
          rcases hfl2 : List.filter (fun q => decide (lowerL q.1 = k)) rest with _ | ⟨q, qs⟩
          · exact hfl2
          · rw [hfl2] at hrf
            rcases hgl : (q :: qs).getLast? with _ | x
            · exact absurd hgl (by simp [List.getLast?_eq_none_iff])
            · rw [hgl] at hrf
              simp at hrf
        have h2 : lastPathMatch (pr :: rest) k = some pr.1 := by
          unfold lastPathMatch
          rw [hfil, hfl]
          rfl
        rw [h2]
    · have hfil : List.filter (fun q => decide (lowerL q.1 = k)) (pr :: rest) =
          List.filter (fun q => decide (lowerL q.1 = k)) rest := by
        simp [List.filter_cons, hpk]
      have hLP : lastPathMatch (pr :: rest) k = lastPathMatch rest k := by
        unfold lastPathMatch
        rw [hfil]
      rw [hLP]
      cases hrf : lastPathMatch rest k with
      | some p => rfl
      | none =>
        by_cases hlkk : lowerL pr.2 = k
        · have hFL : firstLeafMatch (pr :: rest) k = some pr.1 := by
            unfold firstLeafMatch
            simp [List.filter_cons, hlkk]
          rw [hFL]
          cases hold : alistLookup (lowerL pr.2) idx with
          | some w =>
            have hw : w ≠ [] := hinv _ _ hold
            have htr : truthy (alistLookup (lowerL pr.2) idx) = true := by
              simp [truthy, hold, hw]
            have hlook : alistLookup k (applyPage idx pr) = alistLookup k idx := by
              unfold applyPage indexInsertPage
              rw [htr]
              simp only [alistLookup, if_neg hpk]
              simp
            rw [hlook, ← hlkk, hold]
          | none =>
            have htr : truthy (alistLookup (lowerL pr.2) idx) = false := by
              simp [truthy, hold]
            have hlook : alistLookup k (applyPage idx pr) = some pr.1 := by
              unfold applyPage indexInsertPage
              rw [htr]
              simp only [alistLookup, if_neg hpk, if_pos hlkk, Bool.false_eq_true, if_false]
            rw [hlook, ← hlkk, hold]
        · have hFL : firstLeafMatch (pr :: rest) k = firstLeafMatch rest k := by
            unfold firstLeafMatch
            simp [List.filter_cons, hlkk]
          rw [hFL]
          have hlook : alistLookup k (applyPage idx pr) = alistLookup k idx := by
            unfold applyPage indexInsertPage
            split
            · simp only [alistLookup, if_neg hpk]
            · simp only [alistLookup, if_neg hpk, if_neg hlkk]
          rw [hlook]

/-- C3 counterexample: with the walk order `a/foo.md` then `foo.md`, the
leaf key `foo` is first registered to `a/foo`; the claim says that first
registration is kept, but the later top-level page's unconditional
full-path insert overwrites the key `foo` to `foo`. -/
theorem buildPageIndex_cex :
    alistLookup "foo".data
        (buildPageIndex [.dir "a".data [.file "foo.md".data], .file "foo.md".data]) =
      some "foo".data ∧
    some "foo".data ≠ some ("a/foo".data) := by
  refine ⟨?_, by decide⟩
  simp [buildPageIndex, scanDirectory, indexInsertPage, truthy, alistLookup, lowerL,
    endsWithMd, dropExt3, joinRel, List.isSuffixOf]

/-- C3 (amended): after a rebuild, a key equal to the lowercased full path
of some walked page maps to the path of the last such page (unconditional
path-key inserts overwrite, including a first-registered leaf mapping for
the same key); any other key equal to the lowercased leaf name of some
walked page maps to the path of the first such page; all other keys are
absent. -/
theorem buildPageIndex_spec (root : List FsEntry) (k : Str)
    (hvals : ∀ pr ∈ walkDirectory [] root, pr.1 ≠ []) :
    alistLookup k (buildPageIndex root) =
      (match lastPathMatch (walkDirectory [] root) k with
       | some p => some p
       | none => firstLeafMatch (walkDirectory [] root) k) := by
  unfold buildPageIndex
  rw [scanDirectory_eq_foldl, foldl_applyPage_lookup _ _ _ hvals
    (fun k2 v h => by simp [alistLookup] at h)]
  cases lastPathMatch (walkDirectory [] root) k <;> rfl

/-- Witness for C3 at a concrete input. -/
theorem buildPageIndex_spec_witness :
    alistLookup "foo".data
        (buildPageIndex [.dir "a".data [.file "foo.md".data], .file "foo.md".data]) =
      (match lastPathMatch (walkDirectory []
            [.dir "a".data [.file "foo.md".data], .file "foo.md".data]) "foo".data with
       | some p => some p
       | none => firstLeafMatch (walkDirectory []
            [.dir "a".data [.file "foo.md".data], .file "foo.md".data]) "foo".data) :=
  buildPageIndex_spec _ _
    (by simp [walkDirectory, endsWithMd, dropExt3, joinRel, List.isSuffixOf])

/-- C9 counterexample: the rebuild walker has no dot-entry skip, so a
dot-prefixed markdown file and a file inside a dot-prefixed directory both
contribute index keys. -/
theorem buildPageIndex_dot_cex :
    alistLookup ".h".data (buildPageIndex [.file ".h.md".data]) = some ".h".data ∧
    alistLookup ".git/x".data
        (buildPageIndex [.dir ".git".data [.file "x.md".data]]) =
      some ".git/x".data := by
  constructor <;>
    simp [buildPageIndex, scanDirectory, indexInsertPage, truthy, alistLookup, lowerL,
      endsWithMd, dropExt3, joinRel, List.isSuffixOf]

/-- C9 (amended): the rebuild walks every entry, dot-prefixed or not, and
every markdown file it walks — including dot-prefixed files and files
inside dot-prefixed directories — contributes its full-path key to the
rebuilt index. -/
theorem buildPageIndex_no_dot_skip (root : List FsEntry)
    (hvals : ∀ pr ∈ walkDirectory [] root, pr.1 ≠ []) :
    ∀ pr ∈ walkDirectory [] root,
      alistLookup (lowerL pr.1) (buildPageIndex root) ≠ none := by
  intro pr hpr
  unfold buildPageIndex
  rw [scanDirectory_eq_foldl, foldl_applyPage_lookup _ _ _ hvals
    (fun k2 v h => by simp [alistLookup] at h)]
  have hmem : pr ∈ (walkDirectory [] root).filter
      (fun q => decide (lowerL q.1 = lowerL pr.1)) := by
    simp [List.mem_filter, hpr]
  have hne2 : (walkDirectory [] root).filter
      (fun q => decide (lowerL q.1 = lowerL pr.1)) ≠ [] :=
    List.ne_nil_of_mem hmem
  cases hlp : lastPathMatch (walkDirectory [] root) (lowerL pr.1) with
  | some p => simp
  | none =>
    exfalso
    unfold lastPathMatch at hlp
    rcases hfl : (walkDirectory [] root).filter
        (fun q => decide (lowerL q.1 = lowerL pr.1)) with _ | ⟨x, xs⟩
    · exact hne2 hfl
    · rw [hfl] at hlp
      rcases hgl : (x :: xs).getLast? with _ | y
      · exact absurd hgl (by simp [List.getLast?_eq_none_iff])
      · rw [hgl] at hlp
        simp at hlp

/-- Witness for C9 at a concrete input. -/
theorem buildPageIndex_no_dot_skip_witness :
    ((".git/x".data, "x".data) ∈
      walkDirectory [] [.dir ".git".data [.file "x.md".data]]) ∧
    alistLookup (lowerL ".git/x".data)
        (buildPageIndex [.dir ".git".data [.file "x.md".data]]) ≠ none := by
  have hw : ∀ pr ∈ walkDirectory [] [FsEntry.dir ".git".data [.file "x.md".data]],
      pr.1 ≠ [] := by
    simp [walkDirectory, endsWithMd, dropExt3, joinRel, List.isSuffixOf]
  have hm : ((".git/x".data, "x".data) : Str × Str) ∈
      walkDirectory [] [FsEntry.dir ".git".data [.file "x.md".data]] := by
    simp [walkDirectory, endsWithMd, dropExt3, joinRel, List.isSuffixOf]
  exact ⟨hm, buildPageIndex_no_dot_skip _ hw _ hm⟩

/-! ## C2: tree node invariant -/

theorem mem_insertSorted (x y : TreeNode) :
    ∀ l : List TreeNode, x ∈ insertSorted y l ↔ x = y ∨ x ∈ l := by
  intro l
  induction l with
  | nil => simp [insertSorted]
  | cons z zs ih =>
    simp only [insertSorted]
    split
    · simp
    · simp only [List.mem_cons, ih]
      tauto

theorem mem_sortTree (x : TreeNode) :
    ∀ l : List TreeNode, x ∈ sortTree l ↔ x ∈ l := by
  intro l
  induction l with
  | nil => simp [sortTree]
  | cons z zs ih =>
    simp only [sortTree, mem_insertSorted, ih, List.mem_cons]

theorem allNodesList_mem (x : TreeNode) :
    ∀ l : List TreeNode,
      x ∈ allNodesList l ↔ ∃ t ∈ l, x = t ∨ x ∈ allNodesList t.children := by
  intro l
  induction l with
  | nil => simp [allNodesList]
  | cons z zs ih =>
    cases z with
    | mk n p t h cs =>
      simp only [allNodesList, List.mem_cons, List.mem_append, ih, TreeNode.children]
      constructor
      · rintro (hx | hx | hx)
        · exact ⟨.mk n p t h cs, by simp, Or.inl hx⟩
        · exact ⟨.mk n p t h cs, by simp, Or.inr hx⟩
        · obtain ⟨t2, ht2, hd⟩ := hx
          exact ⟨t2, by simp [ht2], hd⟩
      · rintro ⟨t2, ht2, hd⟩
        rcases ht2 with ht2 | ht2
        · subst ht2
          simp only [TreeNode.children] at hd
          tauto
        · exact Or.inr (Or.inr ⟨t2, ht2, hd⟩)

theorem buildTreeNames_shape (entries : List FsEntry) (bp : Str) :
    ∀ (names : List Str) (t : TreeNode), t ∈ buildTreeNames entries bp names →
      (∃ name es, findDirEntries name entries = some es ∧
        (t = .mk name (joinRel bp name) "page-parent".data true
              (buildTree es (joinRel bp name)) ∨
         t = .mk name (joinRel bp name) "folder".data false
              (buildTree es (joinRel bp name)))) ∨
      (∃ name, t = .mk name (joinRel bp name) "page".data true []) := by
  intro names
  induction names with
  | nil => intro t ht; simp [buildTreeNames] at ht
  | cons name rest ih =>
    intro t ht
    rw [show buildTreeNames entries bp (name :: rest) =
        (if hfd : (findDirEntries name entries).isSome then
           if name ∈ mdBaseNames entries then
             TreeNode.mk name (joinRel bp name) "page-parent".data true
               (buildTree ((findDirEntries name entries).get hfd) (joinRel bp name))
           else
             TreeNode.mk name (joinRel bp name) "folder".data false
               (buildTree ((findDirEntries name entries).get hfd) (joinRel bp name))
         else TreeNode.mk name (joinRel bp name) "page".data true []) ::
          buildTreeNames entries bp rest from by rw [buildTreeNames]] at ht
    rcases List.mem_cons.mp ht with hh | hh
    · by_cases hfd : (findDirEntries name entries).isSome
      · rw [dif_pos hfd] at hh
        by_cases hmd : name ∈ mdBaseNames entries
        · rw [if_pos hmd] at hh
          exact Or.inl ⟨name, (findDirEntries name entries).get hfd,
            (Option.some_get hfd).symm, Or.inl hh⟩
        · rw [if_neg hmd] at hh
          exact Or.inl ⟨name, (findDirEntries name entries).get hfd,
            (Option.some_get hfd).symm, Or.inr hh⟩
      · rw [dif_neg hfd] at hh
        exact Or.inr ⟨name, hh⟩
    · exact ih t hh

theorem nodeOk_page (name path : Str) :
    nodeOk (.mk name path "page".data true []) := by
  simp [nodeOk, TreeNode.type, TreeNode.hasContent, TreeNode.children]

theorem nodeOk_pageParent (name path : Str) (cs : List TreeNode) :
    nodeOk (.mk name path "page-parent".data true cs) := by
  simp [nodeOk, TreeNode.type, TreeNode.hasContent, TreeNode.children]

theorem nodeOk_folder (name path : Str) (cs : List TreeNode) :
    nodeOk (.mk name path "folder".data false cs) := by
  simp [nodeOk, TreeNode.type, TreeNode.hasContent, TreeNode.children]

/-- C2 counterexample: a markdown file next to an empty same-named
directory yields a node of type `page-parent` with content and an empty
children list, refuting both claimed equivalences (`page` iff content with
no children, and `page-parent` iff content with nonempty children). -/
theorem buildTree_cex :
    buildTree [.file "foo.md".data, .dir "foo".data []] [] =
      [TreeNode.mk "foo".data "foo".data "page-parent".data true []] ∧
    "page-parent".data ≠ "page".data := by
  refine ⟨?_, by decide⟩
  simp [buildTree, buildTreeNames, mdBaseNames, dirNames, dedupFirst, removeFirstMd,
    isDotName, endsWithMd, findDirEntries, sortTree, insertSorted, joinRel, treeLe,
    List.isSuffixOf]

/-- C2 (amended): every node produced by the tree builder, at any depth,
satisfies: type `page` implies content and empty children; type
`page-parent` implies content (children may be empty); type `folder` holds
exactly when the node has no content; and every node has one of the three
types. -/
theorem buildTree_invariant (entries : List FsEntry) (bp : Str) (node : TreeNode)
    (hmem : node ∈ allNodesList (buildTree entries bp)) : nodeOk node := by
  suffices h : ∀ (n : Nat) (entries : List FsEntry) (bp : Str) (node : TreeNode),
      sizeOf entries ≤ n → node ∈ allNodesList (buildTree entries bp) → nodeOk node from
    h (sizeOf entries) entries bp node le_rfl hmem
  intro n
  induction n with
  | zero =>
    intro entries bp node hsz _
    exfalso
    cases entries <;> simp at hsz
  | succ n ih =>
    intro entries bp node hsz hmem2
    rw [show buildTree entries bp = sortTree (buildTreeNames entries bp
        (dedupFirst (mdBaseNames entries ++ dirNames entries))) from by rw [buildTree]]
      at hmem2
    obtain ⟨t, htl, hxt⟩ := (allNodesList_mem _ _).mp hmem2
    rw [mem_sortTree] at htl
    rcases buildTreeNames_shape entries bp _ t htl with
      ⟨name, es, hfd, ht | ht⟩ | ⟨name, ht⟩
    · subst ht
      rcases hxt with hxt | hxt
      · subst hxt
        exact nodeOk_pageParent _ _ _
      · simp only [TreeNode.children] at hxt
        have hes : sizeOf es ≤ n := by
          have := findDirEntries_size hfd
          omega
        exact ih es (joinRel bp name) node hes hxt
    · subst ht
      rcases hxt with hxt | hxt
      · subst hxt
        exact nodeOk_folder _ _ _
      · simp only [TreeNode.children] at hxt
        have hes : sizeOf es ≤ n := by
          have := findDirEntries_size hfd
          omega
        exact ih es (joinRel bp name) node hes hxt
    · subst ht
      rcases hxt with hxt | hxt
      · subst hxt
        exact nodeOk_page _ _
      · simp only [TreeNode.children, allNodesList] at hxt
        exact absurd hxt (List.not_mem_nil _)

/-- Witness for C2 at a concrete input. -/
theorem buildTree_invariant_witness :
    nodeOk (TreeNode.mk "a".data "a".data "page".data true []) :=
  buildTree_invariant [.file "a.md".data] [] _
    (by simp [buildTree, buildTreeNames, mdBaseNames, dirNames, dedupFirst,
      removeFirstMd, isDotName, endsWithMd, findDirEntries, sortTree, insertSorted,
      joinRel, treeLe, List.isSuffixOf, allNodesList])

/-! ## C4: reference rewriting on rename -/

theorem rewriteWikilinks_hit (old new inner : Str)
    (hnb : ∀ c ∈ inner, c ≠ ']') (hci : containsSubCI old inner = true) :
    rewriteWikilinks old new ('[' :: '[' :: (inner ++ [']', ']'])) =
      ('[' :: '[' :: (ciReplace old new inner ++ [']', ']']), true) := by
  have hb : ∀ c ∈ inner, notCloseBr c = true := by
    intro c hc
    simp [notCloseBr, hnb c hc]
  have hsp := scan_split notCloseBr inner [']', ']'] hb
  rw [rewriteWikilinks.eq_2, hsp.1, hsp.2]
  rw [show List.takeWhile notCloseBr [']', ']'] = [] from by decide,
    show List.dropWhile notCloseBr [']', ']'] = [']', ']'] from by decide]
  rw [List.append_nil]
  rw [if_pos ⟨by decide, hci⟩]
  simp [rewriteWikilinks.eq_1]

theorem rewriteWikilinks_unmodified (old new : Str) :
    ∀ s : Str, (rewriteWikilinks old new s).2 = false →
      (rewriteWikilinks old new s).1 = s := by
  intro s
  induction s using rewriteWikilinks.induct old new with
  | case1 => intro _; rw [rewriteWikilinks.eq_1]
  | case2 rest2 inner after h ih =>
    intro hf
    exfalso
    rw [rewriteWikilinks.eq_2, if_pos h] at hf
    simp at hf
  | case3 rest2 inner after hneg ih =>
    intro hf
    rw [rewriteWikilinks.eq_2, if_neg hneg] at hf ⊢
    simp only at hf ⊢
    rw [ih hf]
  | case4 c rest hne ih =>
    intro hf
    rw [rewriteWikilinks.eq_3 old new c rest hne] at hf ⊢
    simp only at hf ⊢
    rw [ih hf]

theorem mdTryTarget_of_eq (oldP tgt : Str) (heq : lowerL tgt = lowerL oldP) :
    mdTryTarget oldP (tgt ++ [')']) = some [] := by
  have hlen : tgt.length = oldP.length := by
    have h := congrArg List.length heq
    simpa [lowerL] using h
  have hdrop : (tgt ++ [')']).drop oldP.length = [')'] := by
    rw [← hlen, List.drop_left]
  unfold mdTryTarget
  rw [if_pos]
  · rw [hdrop]
    rfl
  · constructor
    · have hpre : (lowerL oldP) <+: lowerL (tgt ++ [')']) := by
        rw [show lowerL (tgt ++ [')']) = lowerL tgt ++ lowerL [')'] from by simp [lowerL],
          heq]
        exact List.prefix_append _ _
      exact List.isPrefixOf_iff_prefix.mpr hpre
    · rw [hdrop]
      rfl

theorem mdTargetAt_of_eq (oldP tgt : Str) (heq : lowerL tgt = lowerL oldP)
    (hns : tgt.head? ≠ some '/') :
    mdTargetAt oldP (tgt ++ [')']) = some [] := by
  unfold mdTargetAt
  split
  · rename_i t hteq
    exfalso
    cases tgt with
    | nil => simp at hteq
    | cons c0 cs =>
      simp only [List.cons_append, List.cons.injEq] at hteq
      exact hns (by simp [hteq.1])
  · exact mdTryTarget_of_eq oldP tgt heq

theorem mdTargetAt_of_slash (oldP tgt : Str) (heq : lowerL tgt = lowerL oldP) :
    mdTargetAt oldP ('/' :: (tgt ++ [')'])) = some [] := by
  unfold mdTargetAt
  split
  · rename_i t hteq
    simp only [List.cons.injEq] at hteq
    rw [← hteq.2, mdTryTarget_of_eq oldP tgt heq]
  · rename_i hne
    exact absurd rfl (hne (tgt ++ [')']))

theorem rewriteMdLinks_hit (oldP newP txt tgtFull : Str)
    (hnb : ∀ c ∈ txt, c ≠ ']') (htxt : txt ≠ [])
    (hmt : mdTargetAt oldP (tgtFull ++ [')']) = some []) :
    rewriteMdLinks oldP newP ('[' :: (txt ++ ']' :: '(' :: (tgtFull ++ [')']))) =
      ('[' :: (txt ++ ']' :: '(' :: (newP ++ [')'])), true) := by
  have hb : ∀ c ∈ txt, notCloseBr c = true := by
    intro c hc
    simp [notCloseBr, hnb c hc]
  have hsp := scan_split notCloseBr txt (']' :: '(' :: (tgtFull ++ [')'])) hb
  have hA : List.takeWhile notCloseBr (txt ++ ']' :: '(' :: (tgtFull ++ [')'])) = txt := by
    rw [hsp.1, show List.takeWhile notCloseBr (']' :: '(' :: (tgtFull ++ [')'])) = []
      from by simp [List.takeWhile, notCloseBr], List.append_nil]
  have hB : List.dropWhile notCloseBr (txt ++ ']' :: '(' :: (tgtFull ++ [')'])) =
      ']' :: '(' :: (tgtFull ++ [')']) := by
    rw [hsp.2, show List.dropWhile notCloseBr (']' :: '(' :: (tgtFull ++ [')'])) =
      ']' :: '(' :: (tgtFull ++ [')']) from by simp [List.dropWhile, notCloseBr]]
  rw [rewriteMdLinks.eq_2]
  simp only [hA, hB]
  rw [dif_pos ⟨rfl, htxt, by
    rw [show List.drop 2 (']' :: '(' :: (tgtFull ++ [')'])) = tgtFull ++ [')'] from rfl, hmt]
    rfl⟩]
  simp only [show List.drop 2 (']' :: '(' :: (tgtFull ++ [')'])) = tgtFull ++ [')'] from rfl,
    hmt, Option.get_some]
  rw [rewriteMdLinks.eq_1]

theorem rewriteMdLinks_unmodified (oldP newP : Str) :
    ∀ s : Str, (rewriteMdLinks oldP newP s).2 = false →
      (rewriteMdLinks oldP newP s).1 = s := by
  intro s
  induction s using rewriteMdLinks.induct oldP newP with
  | case1 => intro _; rw [rewriteMdLinks.eq_1]
  | case2 rest txt after h rest3 ih =>
    intro hf
    exfalso
    rw [rewriteMdLinks.eq_2, dif_pos h] at hf
    simp at hf
  | case3 rest txt after hneg ih =>
    intro hf
    rw [rewriteMdLinks.eq_2, dif_neg hneg] at hf ⊢
    simp only at hf ⊢
    rw [ih hf]
  | case4 c rest hne ih =>
    intro hf
    rw [rewriteMdLinks.eq_3 oldP newP c rest hne] at hf ⊢
    simp only at hf ⊢
    rw [ih hf]

/-- C4 counterexample: renaming old-name to new-name, a page whose only
reference is the markdown link [t](OLD-NAME) — whose target differs from
old-name both bare and with a leading slash — is still rewritten and
reported affected, because both replacement regexes carry the i flag and
match the target case-insensitively. -/
theorem updatePageReferences_cex :
    updatePageReferences "old-name".data "new-name".data
        [("p".data, "[t](OLD-NAME)".data)] =
      ([("p".data, "[t](new-name)".data)], ["p".data]) ∧
    "OLD-NAME".data ≠ "old-name".data ∧
    "OLD-NAME".data ≠ '/' :: "old-name".data := by
  refine ⟨?_, by decide, by decide⟩
  simp [updatePageReferences, updatePageContent, lastSegment, splitOnChar, hiddenPath,
    isDotName, rewriteWikilinks, rewriteMdLinks, notCloseBr, mdTargetAt, mdTryTarget,
    lowerL, containsSubCI, containsSub, List.dropWhile, List.takeWhile, List.isPrefixOf,
    ciReplace]

/-- C4 (amended): for a rename from oldPath to newPath, with oldName and
newName their final segments: every wikilink bracket pair whose inner text
contains oldName as a case-insensitive substring has each case-insensitive
occurrence of oldName replaced by newName with the rest of the inner text
preserved; content in which the wikilink pattern never fires is kept
verbatim by that pass; every markdown link whose target equals oldPath
case-insensitively — with or without a leading slash, the slash being
dropped in the replacement — has its target replaced by newPath; content in
which the markdown pattern never fires is kept verbatim by that pass; and a
page of the corpus is reported affected, with its rewritten content stored,
exactly when one of the two substitutions fired on it. -/
theorem updatePageReferences_amended :
    (∀ old new inner : Str, (∀ c ∈ inner, c ≠ ']') →
        containsSubCI old inner = true →
        rewriteWikilinks old new ('[' :: '[' :: (inner ++ [']', ']'])) =
          ('[' :: '[' :: (ciReplace old new inner ++ [']', ']']), true)) ∧
    (∀ old new s : Str, (rewriteWikilinks old new s).2 = false →
        (rewriteWikilinks old new s).1 = s) ∧
    (∀ oldP newP txt tgt : Str, (∀ c ∈ txt, c ≠ ']') → txt ≠ [] →
        lowerL tgt = lowerL oldP → tgt.head? ≠ some '/' →
        rewriteMdLinks oldP newP ('[' :: (txt ++ ']' :: '(' :: (tgt ++ [')']))) =
          ('[' :: (txt ++ ']' :: '(' :: (newP ++ [')'])), true)) ∧
    (∀ oldP newP txt tgt : Str, (∀ c ∈ txt, c ≠ ']') → txt ≠ [] →
        lowerL tgt = lowerL oldP →
        rewriteMdLinks oldP newP
            ('[' :: (txt ++ ']' :: '(' :: ('/' :: (tgt ++ [')'])))) =
          ('[' :: (txt ++ ']' :: '(' :: (newP ++ [')'])), true)) ∧
    (∀ oldP newP s : Str, (rewriteMdLinks oldP newP s).2 = false →
        (rewriteMdLinks oldP newP s).1 = s) ∧
    (∀ oldPath newPath p c : Str, hiddenPath p = false →
        updatePageReferences oldPath newPath [(p, c)] =
          ([(p, (updatePageContent (lastSegment oldPath) (lastSegment newPath)
              oldPath newPath c).1)],
           if (updatePageContent (lastSegment oldPath) (lastSegment newPath)
              oldPath newPath c).2 then [p] else [])) := by
  refine ⟨rewriteWikilinks_hit, rewriteWikilinks_unmodified, ?_, ?_,
    rewriteMdLinks_unmodified, ?_⟩
  · intro oldP newP txt tgt hnb htxt heq hns
    exact rewriteMdLinks_hit oldP newP txt tgt hnb htxt (mdTargetAt_of_eq oldP tgt heq hns)
  · intro oldP newP txt tgt hnb htxt heq
    have h := rewriteMdLinks_hit oldP newP txt ('/' :: tgt) hnb htxt
      (by rw [List.cons_append]; exact mdTargetAt_of_slash oldP tgt heq)
    simpa using h
  · intro oldPath newPath p c hhid
    simp [updatePageReferences, hhid]

/-- Witness for C4 at a concrete input: the wikilink conjunct applied to
inner text with a case-insensitive occurrence of the old name. -/
theorem updatePageReferences_amended_witness :
    rewriteWikilinks "old".data "new".data
        ('[' :: '[' :: ("x Old y".data ++ [']', ']'])) =
      ('[' :: '[' :: (ciReplace "old".data "new".data "x Old y".data ++ [']', ']']),
        true) :=
  updatePageReferences_amended.1 "old".data "new".data "x Old y".data
    (by decide) (by decide)
